import Mathlib

/-!
Verification of the payments-explorer pipeline (`src/app.py`) against its
natural-language specification.

The program is a single-script pandas/streamlit application.  We give a
shallow embedding of its data pipeline:

* text values are modelled as lists of character codes (`Str`), with
  Python's `str.strip` / `str.lower` modelled on ASCII code points;
* a raw CSV row is a `RawRecord` whose numeric cells carry the result of
  `pd.to_numeric(errors="coerce")` (`none` when the original cell was
  missing or unparsable) and whose text cells are `none` when missing;
* `load_data` (schema validation, dtype coercion, `payes` normalization,
  `dropna`) becomes `load` / `loadData`;
* the two filter-mask blocks become `rowMask1` / `rowMask2` over an explicit
  `FilterSpec`;
* the aggregations, paginator and CSV export are embedded as list functions.

Machine floats of the source are modelled as exact rationals.
-/

/-- Text is modelled as a list of character code points, as produced by
Python strings.  (`pandas` object cells hold Python `str` values.) -/
abbrev Str := List Nat

/-- Code-point list of a Lean string literal; used to write concrete
Python string values. -/
def strCodes (s : String) : Str := s.toList.map Char.toNat

/-- Python `str.lower` on one code point (ASCII letters; the app's data and
all string constants in `app.py` are ASCII). -/
def lowerCode (n : Nat) : Nat := if 65 ≤ n ∧ n ≤ 90 then n + 32 else n

/-- Python `str.lower`. -/
def lowerStr (s : Str) : Str := s.map lowerCode

/-- Python `str.strip` whitespace test (space, tab, newline, carriage
return, vertical tab, form feed). -/
def isSpaceCode (n : Nat) : Bool :=
  n == 32 || n == 9 || n == 10 || n == 13 || n == 11 || n == 12

/-- Drop leading whitespace. -/
def stripL (s : Str) : Str := s.dropWhile isSpaceCode

/-- Python `str.strip`: drop leading and trailing whitespace. -/
def stripStr (s : Str) : Str := ((stripL s).reverse.dropWhile isSpaceCode).reverse

/-- The `payes` cell normalization of `app.py` line 71:
`.astype(str).str.strip().str.lower().replace({"now": "no"})`.
`Series.replace` rewrites only cells exactly equal to `"now"`. -/
def payesNorm (s : Str) : Str :=
  if lowerStr (stripStr s) = strCodes "now" then strCodes "no"
  else lowerStr (stripStr s)

/-- The column-name canonicalization of `app.py` line 59:
`c.strip().lower()`. -/
def normalizeCol (c : Str) : Str := lowerStr (stripStr c)

theorem lowerCode_idem (n : Nat) : lowerCode (lowerCode n) = lowerCode n := by
  unfold lowerCode
  split_ifs with h1 h2 <;> omega

theorem lowerStr_idem (s : Str) : lowerStr (lowerStr s) = lowerStr s := by
  induction s with
  | nil => rfl
  | cons a t ih =>
      simp only [lowerStr, List.map_cons] at *
      rw [lowerCode_idem]
      exact congrArg _ (by simpa [lowerStr] using ih)

theorem isSpaceCode_lowerCode (n : Nat) :
    isSpaceCode (lowerCode n) = isSpaceCode n := by
  unfold lowerCode
  split_ifs with h
  · have hl : isSpaceCode (n + 32) = false := by
      simp only [isSpaceCode, Bool.or_eq_false_iff, beq_eq_false_iff_ne, ne_eq]
      omega
    have hr : isSpaceCode n = false := by
      simp only [isSpaceCode, Bool.or_eq_false_iff, beq_eq_false_iff_ne, ne_eq]
      omega
    rw [hl, hr]
  · rfl

theorem dropWhile_idem (p : Nat → Bool) (l : List Nat) :
    (l.dropWhile p).dropWhile p = l.dropWhile p := by
  induction l with
  | nil => rfl
  | cons a t ih =>
      by_cases h : p a
      · simp [List.dropWhile_cons, h, ih]
      · simp [List.dropWhile_cons, h]

theorem dropWhile_eq_self_of_pre (p : Nat → Bool) (l l' : List Nat)
    (hl : l.dropWhile p = l) (hpre : l' <+: l) : l'.dropWhile p = l' := by
  cases l' with
  | nil => rfl
  | cons a t =>
      obtain ⟨w, hw⟩ := hpre
      by_cases h : p a
      · exfalso
        have hlen : l.dropWhile p = l := hl
        rw [← hw] at hlen
        simp only [List.cons_append, List.dropWhile_cons, h, if_pos] at hlen
        have hsub : ((t ++ w).dropWhile p).Sublist (t ++ w) := List.dropWhile_sublist _
        have hle := hsub.length_le
        have hlen2 := congrArg List.length hlen
        rw [List.length_cons] at hlen2
        omega
      · simp [List.dropWhile_cons, h]

theorem stripR_pre (l : Str) : (l.reverse.dropWhile isSpaceCode).reverse <+: l := by
  have h1 : l.reverse.dropWhile isSpaceCode <:+ l.reverse := List.dropWhile_suffix _
  have h3 : (l.reverse.dropWhile isSpaceCode).reverse <+: l.reverse.reverse := by
    exact List.reverse_prefix.mpr h1
  simpa using h3

theorem stripL_stripStr (s : Str) : stripL (stripStr s) = stripStr s := by
  have h1 : stripL (stripL s) = stripL s := dropWhile_idem _ _
  have h2 : stripStr s <+: stripL s := stripR_pre (stripL s)
  exact dropWhile_eq_self_of_pre _ _ _ h1 h2

theorem stripStr_reverse (s : Str) :
    (stripStr s).reverse.dropWhile isSpaceCode = (stripStr s).reverse := by
  unfold stripStr
  rw [List.reverse_reverse, dropWhile_idem]

theorem stripStr_idem (s : Str) : stripStr (stripStr s) = stripStr s := by
  calc stripStr (stripStr s)
      = ((stripL (stripStr s)).reverse.dropWhile isSpaceCode).reverse := rfl
    _ = ((stripStr s).reverse.dropWhile isSpaceCode).reverse := by
        rw [stripL_stripStr]
    _ = ((stripStr s).reverse).reverse := by rw [stripStr_reverse]
    _ = stripStr s := List.reverse_reverse _

theorem dropWhile_lowerStr (p : Nat → Bool) (l : Str)
    (hp : ∀ n, p (lowerCode n) = p n) :
    (lowerStr l).dropWhile p = lowerStr (l.dropWhile p) := by
  induction l with
  | nil => rfl
  | cons a t ih =>
      simp only [lowerStr, List.map_cons, List.dropWhile_cons, hp a]
      by_cases h : p a
      · simpa [h, lowerStr] using ih
      · simp [h, lowerStr]

theorem stripStr_lowerStr (s : Str) :
    stripStr (lowerStr s) = lowerStr (stripStr s) := by
  unfold stripStr stripL
  rw [dropWhile_lowerStr _ _ isSpaceCode_lowerCode]
  rw [show (lowerStr (s.dropWhile isSpaceCode)).reverse
        = lowerStr ((s.dropWhile isSpaceCode).reverse) by simp [lowerStr]]
  rw [dropWhile_lowerStr _ _ isSpaceCode_lowerCode]
  simp [lowerStr]

/-- Claim C8 helper: the normalization kernel `lowerStr ∘ stripStr` is
idempotent. -/
theorem lowerStrip_idem (s : Str) :
    lowerStr (stripStr (lowerStr (stripStr s))) = lowerStr (stripStr s) := by
  rw [stripStr_lowerStr, stripStr_idem, lowerStr_idem]

/-- Claim C8: the `payes` normalization (stringify, strip, lower, rewrite the
exact value "now" to "no") is idempotent on string values, maps "NOW",
" now ", "Now" to "no", keeps "yes", and passes "maybe" through. -/
theorem payesNorm_spec :
    (∀ s : Str, payesNorm (payesNorm s) = payesNorm s) ∧
    payesNorm (strCodes "NOW") = strCodes "no" ∧
    payesNorm (strCodes " now ") = strCodes "no" ∧
    payesNorm (strCodes "Now") = strCodes "no" ∧
    payesNorm (strCodes "yes") = strCodes "yes" ∧
    payesNorm (strCodes "maybe") = strCodes "maybe" := by
  refine ⟨?_, by decide, by decide, by decide, by decide, by decide⟩
  intro s
  by_cases h1 : lowerStr (stripStr s) = strCodes "now"
  · have hs : payesNorm s = strCodes "no" := by unfold payesNorm; rw [if_pos h1]
    rw [hs]
    decide
  · have hs : payesNorm s = lowerStr (stripStr s) := by
      unfold payesNorm; rw [if_neg h1]
    rw [hs]
    unfold payesNorm
    rw [lowerStrip_idem, if_neg h1]

/-- One raw CSV row, as read by `pd.read_csv`.  Text cells are `none` when
the cell is missing (pandas `NaN`).  The `year` and `value` cells carry the
result of `pd.to_numeric(errors="coerce")` (lines 66-67 of `app.py`):
`none` when the original cell was missing or failed numeric coercion.
(`year` additionally goes through `.astype("Int64")`, so it is an integer.) -/
structure RawRecord where
  city : Option Str
  year : Option ℤ
  receiver : Option Str
  value : Option ℚ
  type : Option Str
  payes : Option Str
deriving DecidableEq

/-- One normalized payment row, after the coercions of `load_data`. -/
structure Record where
  city : Str
  year : ℤ
  receiver : Str
  value : ℚ
  type : Str
  payes : Str
deriving DecidableEq

/-- Python/pandas `astype(str)` on one object cell: a missing value (pandas
`NaN`) is stringified to the literal text "nan"; a string cell keeps its
text. -/
def stringifyCell (c : Option Str) : Str := c.getD (strCodes "nan")

/-- Row-wise content of `load_data` lines 66-72: coerce dtypes, normalize
`payes`, and (`dropna(subset=["year", "value"])`) drop the row when `year`
or `value` is missing after coercion. -/
def loadRow (r : RawRecord) : Option Record :=
  match r.year, r.value with
  | some y, some v =>
      some { city := stringifyCell r.city, year := y,
             receiver := stringifyCell r.receiver, value := v,
             type := stringifyCell r.type,
             payes := payesNorm (stringifyCell r.payes) }
  | _, _ => none

/-- The normalized table produced by `load_data` (input order preserved,
invalid rows dropped). -/
def loadData (rows : List RawRecord) : List Record := rows.filterMap loadRow

/-- The six required column names of `app.py` line 58. -/
def expectedCols : List Str :=
  [strCodes "city", strCodes "year", strCodes "receiver",
   strCodes "value", strCodes "type", strCodes "payes"]

/-- The renamed header (`df.rename(columns=lower_cols)`, line 60): every
column name is trimmed and lower-cased, order preserved. -/
def loadCols (cols : List Str) : List Str := cols.map normalizeCol

/-- `missing = [c for c in expected if c not in df.columns]` (line 61). -/
def missingCols (cols : List Str) : List Str :=
  expectedCols.filter (fun e => decide (e ∉ loadCols cols))

/-- `load_data` with its schema validation (lines 58-64): on a missing
required column the app shows the error naming the missing columns and
stops (`st.error` / `st.stop`), producing no table; otherwise it returns
the normalized table. -/
def load (cols : List Str) (rows : List RawRecord) :
    Except (List Str) (List Record) :=
  if missingCols cols = [] then .ok (loadData rows) else .error (missingCols cols)

/-- The user-chosen filter controls, as read by the filter-mask block:
city multiselect, receiver selectbox (sentinel "All"), type multiselect,
payes multiselect, year slider range, value slider range, receiver search
text. -/
structure FilterSpec where
  citySel : List Str
  receiverSel : Str
  typeSel : List Str
  payesSel : List Str
  yearRange : ℤ × ℤ
  valueRange : ℚ × ℚ
  search : Str
deriving DecidableEq

/-- `Series.between(lo, hi)`: inclusive on both ends. -/
def betweenZ (lo hi x : ℤ) : Bool := decide (lo ≤ x) && decide (x ≤ hi)

/-- `Series.between(lo, hi)`: inclusive on both ends. -/
def betweenQ (lo hi x : ℚ) : Bool := decide (lo ≤ x) && decide (x ≤ hi)

/-- Python `x in l` for the `isin` filters. -/
def memStr (x : Str) (l : List Str) : Bool := decide (x ∈ l)

/-- `List.isPrefixOf`-based literal substring test.  `app.py` line 124 uses
`Series.str.contains(search, case=False, na=False)`, whose pattern argument
is a regular expression by default; for search text free of regex
metacharacters (the case this development states claims about) it is
literal substring containment, case-insensitive via lower-casing both
sides.  `na=False` is vacuous here: after `astype(str)` (line 69) the
receiver column has no missing values. -/
def subStr (pat : Str) : Str → Bool
  | [] => decide (pat = [])
  | c :: t => pat.isPrefixOf (c :: t) || subStr pat t

/-- The receiver-search mask of `app.py` line 124 (applied only when the
search text is non-empty, line 123). -/
def searchMask (search : Str) (r : Record) : Bool :=
  subStr (lowerStr search) (lowerStr r.receiver)

/-- First filter-mask block, `app.py` lines 110-124, restricted to one row
(the pandas mask is the row-wise conjunction of these predicates). -/
def rowMask1 (s : FilterSpec) (r : Record) : Bool :=
  let m := betweenZ s.yearRange.1 s.yearRange.2 r.year &&
           betweenQ s.valueRange.1 s.valueRange.2 r.value
  let m := if s.citySel ≠ [] then m && memStr r.city s.citySel else m
  let m := if s.receiverSel ≠ strCodes "All" then
             m && decide (r.receiver = s.receiverSel) else m
  let m := if s.typeSel ≠ [] then m && memStr r.type s.typeSel else m
  let m := if s.payesSel ≠ [] then m && memStr r.payes (s.payesSel.map lowerStr)
           else m
  let m := if s.search ≠ [] then m && searchMask s.search r else m
  m

/-- Line 97 of `app.py` assigns `receiver_sel` unconditionally, so the
`"receiver_sel" in locals()` guard of line 136 is always `True`. -/
def receiverSelAssigned : Bool := true

/-- Second filter-mask block, `app.py` lines 129-143.  It repeats the first
block except that the receiver condition is guarded by
`"receiver_sel" in locals()`. -/
def rowMask2 (s : FilterSpec) (r : Record) : Bool :=
  let m := betweenZ s.yearRange.1 s.yearRange.2 r.year &&
           betweenQ s.valueRange.1 s.valueRange.2 r.value
  let m := if s.citySel ≠ [] then m && memStr r.city s.citySel else m
  let m := if receiverSelAssigned = true ∧ s.receiverSel ≠ strCodes "All" then
             m && decide (r.receiver = s.receiverSel) else m
  let m := if s.typeSel ≠ [] then m && memStr r.type s.typeSel else m
  let m := if s.payesSel ≠ [] then m && memStr r.payes (s.payesSel.map lowerStr)
           else m
  let m := if s.search ≠ [] then m && searchMask s.search r else m
  m

/-- `fdf = df[mask].copy()` for the first mask block (line 126). -/
def applyFilters1 (s : FilterSpec) (t : List Record) : List Record :=
  t.filter (rowMask1 s)

/-- `fdf = df[mask].copy()` for the second mask block (line 145); this is
the table every downstream consumer (KPIs, charts, pagination, export)
reads. -/
def applyFilters2 (s : FilterSpec) (t : List Record) : List Record :=
  t.filter (rowMask2 s)

/-- Claim C9: the two consecutive filter-mask blocks compute identical
row masks, hence identical filtered tables: the final `fdf` (second block)
equals the `fdf` of the first block for every table and every combination
of control values. -/
theorem filterBlocks_equal (s : FilterSpec) (t : List Record) :
    applyFilters2 s t = applyFilters1 s t ∧
    ∀ r : Record, rowMask2 s r = rowMask1 s r := by
  have hmask : ∀ r : Record, rowMask2 s r = rowMask1 s r := by
    intro r
    simp only [rowMask1, rowMask2, receiverSelAssigned, true_and]
  refine ⟨?_, hmask⟩
  simp only [applyFilters1, applyFilters2]
  exact List.filter_congr (fun r _ => hmask r)

theorem missingCols_eq_nil_iff (cols : List Str) :
    missingCols cols = [] ↔ ∀ c ∈ expectedCols, c ∈ loadCols cols := by
  unfold missingCols
  rw [List.filter_eq_nil_iff]
  constructor
  · intro h c hc
    by_contra hnot
    exact absurd (by simpa using hnot) (by simpa using h c hc)
  · intro h c hc
    simpa using h c hc

/-- Claim C5: if, after trimming and lower-casing, the header lacks some of
the six required columns, `load` halts with a schema error listing exactly
the missing columns and produces no table; if all six are present, no
schema error is raised and the normalized table is returned. -/
theorem load_schema (cols : List Str) (rows : List RawRecord) :
    (∀ m, load cols rows = .error m →
      m ≠ [] ∧ ∀ c, c ∈ m ↔ c ∈ expectedCols ∧ c ∉ loadCols cols) ∧
    ((∀ c ∈ expectedCols, c ∈ loadCols cols) →
      load cols rows = .ok (loadData rows)) ∧
    ((∃ c ∈ expectedCols, c ∉ loadCols cols) →
      ∃ m, load cols rows = .error m ∧ m ≠ []) := by
  refine ⟨?_, ?_, ?_⟩
  · intro m hm
    unfold load at hm
    by_cases h : missingCols cols = []
    · rw [if_pos h] at hm
      cases hm
    · rw [if_neg h] at hm
      cases hm
      refine ⟨h, fun c => ?_⟩
      unfold missingCols
      simp [List.mem_filter]
  · intro h
    unfold load
    rw [if_pos ((missingCols_eq_nil_iff cols).mpr h)]
  · rintro ⟨c, hc, hcn⟩
    have h : missingCols cols ≠ [] := by
      intro hnil
      exact hcn ((missingCols_eq_nil_iff cols).mp hnil c hc)
    refine ⟨missingCols cols, ?_, h⟩
    unfold load
    rw [if_neg h]

/-- Witness for claim C5 at a concrete header: a file whose header is
`[" CITY ", "year"]` is rejected with a non-empty list of missing
columns. -/
theorem load_schema_witness :
    ∃ m, load [strCodes " CITY ", strCodes "year"] [] = .error m ∧ m ≠ [] :=
  (load_schema [strCodes " CITY ", strCodes "year"] []).2.2
    ⟨strCodes "receiver", by decide, by decide⟩

theorem subStr_iff (pat hay : Str) :
    subStr pat hay = true ↔ ∃ u v, hay = u ++ pat ++ v := by
  induction hay with
  | nil =>
      simp only [subStr, decide_eq_true_eq]
      constructor
      · rintro rfl
        exact ⟨[], [], rfl⟩
      · rintro ⟨u, v, huv⟩
        have := huv.symm
        rcases List.append_eq_nil.mp (List.append_eq_nil.mp this).1 with ⟨h1, h2⟩
        exact h2
  | cons c t ih =>
      simp only [subStr, Bool.or_eq_true, ih]
      constructor
      · rintro (hpre | ⟨u, v, rfl⟩)
        · obtain ⟨v, hv⟩ := List.isPrefixOf_iff_prefix.mp hpre
          exact ⟨[], v, by simpa using hv.symm⟩
        · exact ⟨c :: u, v, rfl⟩
      · rintro ⟨u, v, huv⟩
        cases u with
        | nil =>
            left
            exact List.isPrefixOf_iff_prefix.mpr ⟨v, by simpa using huv.symm⟩
        | cons u0 u' =>
            right
            refine ⟨u', v, ?_⟩
            simpa using congrArg List.tail huv

/-- The isolated effect of lines 123-124 of `app.py` on the filtered rows:
when the search text is non-empty the rows are restricted by the
receiver-search mask, otherwise the predicate is skipped. -/
def searchFilter (search : Str) (t : List Record) : List Record :=
  if search ≠ [] then t.filter (searchMask search) else t

/-- A raw row whose receiver cell is missing but whose year and value are
valid, so normalization keeps the row. -/
def rawNoReceiver : RawRecord :=
  { city := some (strCodes "X"), year := some 2020, receiver := none,
    value := some 1, type := some (strCodes "T"),
    payes := some (strCodes "yes") }

/-- The record `load_data` produces from `rawNoReceiver`: `astype(str)`
turns the missing receiver into the literal text "nan". -/
def recNan : Record :=
  { city := strCodes "X", year := 2020, receiver := strCodes "nan",
    value := 1, type := strCodes "T", payes := strCodes "yes" }

/-- Counterexample to claim C1 as stated: a row whose receiver was missing
in the raw input is kept by the receiver search "a" — after `astype(str)`
the receiver is the text "nan", which contains "a" — contradicting "rows
whose receiver was missing in the raw input never match any search". -/
theorem searchFilter_missing_receiver_matches :
    loadData [rawNoReceiver] = [recNan] ∧
    searchMask (strCodes "a") recNan = true ∧
    searchFilter (strCodes "a") (loadData [rawNoReceiver]) = [recNan] := by
  decide

/-- Claim C1 (amended): for a non-empty search string free of regex
metacharacters, the receiver-search predicate keeps exactly the rows whose
(coerced) receiver contains the search text as a case-insensitive literal
substring; an empty search string skips the predicate and keeps every row;
and a row whose receiver was missing in the raw input gets the coerced
receiver text "nan", so it matches exactly the searches occurring
case-insensitively in "nan" (rather than never matching). -/
theorem searchFilter_spec (t : List Record) (search : Str) :
    searchFilter [] t = t ∧
    (search ≠ [] →
      ∀ r : Record, (r ∈ searchFilter search t ↔
        r ∈ t ∧ ∃ u v, lowerStr r.receiver = u ++ lowerStr search ++ v)) ∧
    (∀ raw : RawRecord, raw.receiver = none →
      ∀ rec : Record, loadRow raw = some rec → rec.receiver = strCodes "nan") := by
  refine ⟨by simp [searchFilter], ?_, ?_⟩
  · intro hne r
    unfold searchFilter
    rw [if_pos hne]
    rw [List.mem_filter]
    unfold searchMask
    rw [subStr_iff]
  · intro raw hnone rec hrec
    rcases raw with ⟨rc, ry, rr, rv, rt, rp⟩
    subst hnone
    cases ry with
    | none => cases hrec
    | some y =>
        cases rv with
        | none => cases hrec
        | some v =>
            cases hrec
            rfl

/-- Witness for claim C1 (amended) at a concrete table and search text:
searching "AN" keeps exactly the row whose receiver "Banco" contains "an"
case-insensitively. -/
theorem searchFilter_spec_witness :
    recNan ∈ searchFilter (strCodes "AN") [recNan] ↔
      recNan ∈ [recNan] ∧
      ∃ u v, lowerStr recNan.receiver = u ++ lowerStr (strCodes "AN") ++ v :=
  (searchFilter_spec [recNan] (strCodes "AN")).2.1 (by decide) recNan

/-- `total_pages = max(1, math.ceil(len(fdf) / page_size))` (line 180),
with `math.ceil` of the exact quotient written as Nat ceiling division. -/
def totalPages (t : List Record) (ps : ℕ) : ℕ :=
  max 1 ((t.length + ps - 1) / ps)

/-- `fdf.iloc[start:end]` with
`start, end = (page - 1) * page_size, (page - 1) * page_size + page_size`
(lines 182-188).  `page` is 1-based and Python slicing clips to the table
bounds. -/
def pageSlice (t : List Record) (ps : ℕ) (page : ℕ) : List Record :=
  (t.drop ((page - 1) * ps)).take ps

theorem pages_concat_take (t : List Record) (ps : ℕ) (n : ℕ) :
    (List.range n).flatMap (fun k => (t.drop (k * ps)).take ps) =
      t.take (n * ps) := by
  induction n with
  | zero => simp
  | succ n ih =>
      rw [List.range_succ, List.flatMap_append, ih]
      rw [Nat.succ_mul, List.take_add]
      simp

/-- A sample normalized record used by concrete witnesses. -/
def exRec : Record :=
  { city := strCodes "A", year := 2020, receiver := strCodes "R",
    value := 2, type := strCodes "t", payes := strCodes "no" }

/-- Claim C4: for positive page size, `totalPages` is the ceiling of
rowCount / pageSize with minimum 1 (an empty table reports one page);
concatenating the pages 1..totalPages reconstructs the filtered table
exactly (no gaps, no overlaps); and a page index beyond `totalPages`
yields the empty slice. -/
theorem ceil_bounds_abs (a b q r : ℕ) (ha : 0 < a)
    (hdm : b * q + r = a + b - 1) (hr : r < b) :
    a ≤ q * b ∧ (q - 1) * b < a := by
  obtain ⟨s, rfl⟩ : ∃ s, b = s + 1 := ⟨b - 1, by omega⟩
  have e : a + (s + 1) - 1 = a + s := by omega
  rw [e] at hdm
  have hq1 : 1 ≤ q := by
    by_contra hq0
    have hq0' : q = 0 := by omega
    rw [hq0', Nat.mul_zero] at hdm
    omega
  obtain ⟨p, rfl⟩ : ∃ p, q = p + 1 := ⟨q - 1, by omega⟩
  have hcomm : (s + 1) * (p + 1) = (p + 1) * (s + 1) := Nat.mul_comm _ _
  have hexp : (s + 1) * (p + 1) = p * (s + 1) + (s + 1) := by ring
  constructor
  · linarith
  · have hp : p + 1 - 1 = p := by omega
    rw [hp]
    linarith

theorem totalPages_bounds (t : List Record) (ps : ℕ) (hps : 0 < ps)
    (hpos : 0 < t.length) :
    t.length ≤ totalPages t ps * ps ∧ (totalPages t ps - 1) * ps < t.length := by
  have hq1 : 1 ≤ (t.length + ps - 1) / ps :=
    (Nat.one_le_div_iff hps).mpr (by omega)
  have hdm := Nat.div_add_mod (t.length + ps - 1) ps
  have hmod := Nat.mod_lt (t.length + ps - 1) hps
  have hb := ceil_bounds_abs t.length ps ((t.length + ps - 1) / ps)
    ((t.length + ps - 1) % ps) hpos hdm hmod
  unfold totalPages
  rw [Nat.max_eq_right hq1]
  exact ⟨hb.1, hb.2⟩

theorem paginator_spec (t : List Record) (ps : ℕ) (hps : 0 < ps) :
    (t.length = 0 → totalPages t ps = 1) ∧
    (0 < t.length →
      (totalPages t ps - 1) * ps < t.length ∧
      t.length ≤ totalPages t ps * ps) ∧
    (List.range (totalPages t ps)).flatMap (fun k => pageSlice t ps (k + 1)) = t ∧
    (∀ i, totalPages t ps < i → pageSlice t ps i = []) := by
  have hlen : t.length ≤ totalPages t ps * ps := by
    rcases Nat.eq_zero_or_pos t.length with h0 | hpos
    · rw [h0]; exact Nat.zero_le _
    · exact (totalPages_bounds t ps hps hpos).1
  refine ⟨?_, ?_, ?_, ?_⟩
  · intro h0
    unfold totalPages
    rw [h0]
    have h1 : (0 + ps - 1) / ps = 0 := Nat.div_eq_of_lt (by omega)
    rw [h1]
    omega
  · intro hpos
    exact ⟨(totalPages_bounds t ps hps hpos).2, hlen⟩
  · have : ∀ k, pageSlice t ps (k + 1) = (t.drop (k * ps)).take ps := by
      intro k
      simp [pageSlice]
    calc (List.range (totalPages t ps)).flatMap (fun k => pageSlice t ps (k + 1))
        = (List.range (totalPages t ps)).flatMap
            (fun k => (t.drop (k * ps)).take ps) := by
          exact List.flatMap_congr (fun k _ => this k)
      _ = t.take (totalPages t ps * ps) := pages_concat_take t ps _
      _ = t := List.take_of_length_le hlen
  · intro i hi
    unfold pageSlice
    have hdrop : t.length ≤ (i - 1) * ps := by
      have h1 : totalPages t ps ≤ i - 1 := by omega
      have h2 : totalPages t ps * ps ≤ (i - 1) * ps :=
        Nat.mul_le_mul_right ps h1
      omega
    simp [List.drop_eq_nil_of_le hdrop]

/-- Witness for claim C4: with page size 4, the one-row table fits on a
single page and its bounds satisfy the ceiling characterization. -/
theorem paginator_spec_witness :
    (totalPages [exRec] 4 - 1) * 4 < [exRec].length ∧
    [exRec].length ≤ totalPages [exRec] 4 * 4 :=
  (paginator_spec [exRec] 4 (by decide)).2.1 (by decide)

/-- The KPI block of `app.py` lines 148-154: row count `len(fdf)`, total
`fdf['value'].sum()`, and average `fdf['value'].mean() if len(fdf) else 0`
(`Series.mean` is the sum divided by the count). -/
def kpis (t : List Record) : ℕ × ℚ × ℚ :=
  (t.length, (t.map Record.value).sum,
   if t.length ≠ 0 then (t.map Record.value).sum / (t.length : ℚ) else 0)

/-- Claim C6: rowCount is the number of records, totalValue the sum of the
value column (0 when the table is empty), and avgValue the mean of the
value column with the empty case special-cased to 0 rather than an
undefined result. -/
theorem kpis_spec (t : List Record) :
    (kpis t).1 = t.length ∧
    (kpis t).2.1 = (t.map Record.value).sum ∧
    (t = [] → (kpis t).2.1 = 0 ∧ (kpis t).2.2 = 0) ∧
    (t ≠ [] → (kpis t).2.2 * (t.length : ℚ) = (t.map Record.value).sum) := by
  refine ⟨rfl, rfl, ?_, ?_⟩
  · rintro rfl
    exact ⟨rfl, rfl⟩
  · intro hne
    have hlen : t.length ≠ 0 := by
      simpa [List.length_eq_zero] using hne
    have hcast : (t.length : ℚ) ≠ 0 := Nat.cast_ne_zero.mpr hlen
    unfold kpis
    simp only [hlen, ne_eq, not_false_eq_true, if_true, if_pos]
    exact div_mul_cancel₀ _ hcast

/-- Witness for claim C6 on a one-row table: the average times the count
gives back the total. -/
theorem kpis_spec_witness :
    (kpis [exRec]).2.2 * ([exRec].length : ℚ) =
      ([exRec].map Record.value).sum :=
  (kpis_spec [exRec]).2.2.2 (by decide)

/-- Python `round(x, 2)` — round half to even at the second decimal — on an
exact rational, computed on the numerator and denominator (`Int` `/` is
floor division for the positive denominator). -/
def round2 (q : ℚ) : ℚ :=
  let n : ℤ := 100 * q.num
  let d : ℤ := (q.den : ℤ)
  let f : ℤ := n / d
  let r : ℤ := n - f * d
  let k : ℤ := if 2 * r < d then f
               else if d < 2 * r then f + 1
               else if f % 2 = 0 then f else f + 1
  (k : ℚ) / 100

/-- Lines 102-106 of `app.py`: the slider bounds and default values.
`int(df["year"].min())`, `int(df["year"].max())`, `float(df["value"].min())`
and `float(df["value"].max())` raise on an empty normalized table (the min
or max of an empty column is missing, and `int(NaN)` fails), modelled as
`none`; the value bounds are rounded to two decimals
(`float(round(value_min, 2))`). -/
def rangeDefaults (t : List Record) : Option ((ℤ × ℤ) × (ℚ × ℚ)) :=
  match (t.map Record.year).min?, (t.map Record.year).max?,
        (t.map Record.value).min?, (t.map Record.value).max? with
  | some a, some b, some c, some d => some ((a, b), (round2 c, round2 d))
  | _, _, _, _ => none

/-- The all-default `FilterSpec`: no city/type/payes selection, receiver
sentinel "All", empty search, year range `(year_min, year_max)` and value
range `(round(value_min, 2), round(value_max, 2))` as initialized by the
sliders of lines 102-106. -/
def defaultSpec (t : List Record) : FilterSpec :=
  { citySel := [], receiverSel := strCodes "All", typeSel := [],
    payesSel := [],
    yearRange := (((t.map Record.year).min?).getD 0,
                  ((t.map Record.year).max?).getD 0),
    valueRange := (round2 (((t.map Record.value).min?).getD 0),
                   round2 (((t.map Record.value).max?).getD 0)),
    search := [] }

theorem foldl_min_spec {α : Type} [LinearOrder α] (xs : List α) (x : α) :
    xs.foldl min x ∈ x :: xs ∧ ∀ b ∈ x :: xs, xs.foldl min x ≤ b := by
  induction xs generalizing x with
  | nil => simp
  | cons y ys ih =>
      have h := ih (min x y)
      constructor
      · rw [List.foldl_cons]
        rcases List.mem_cons.mp h.1 with hm | hm
        · rw [hm]
          rcases min_choice x y with hc | hc <;> rw [hc]
          · exact List.mem_cons_self _ _
          · exact List.mem_cons_of_mem _ (List.mem_cons_self _ _)
        · exact List.mem_cons_of_mem _ (List.mem_cons_of_mem _ hm)
      · intro b hb
        have hle : ys.foldl min (min x y) ≤ min x y :=
          h.2 _ (List.mem_cons_self _ _)
        rw [List.foldl_cons]
        rcases List.mem_cons.mp hb with rfl | hb'
        · exact le_trans hle (min_le_left _ _)
        · rcases List.mem_cons.mp hb' with rfl | hb''
          · exact le_trans hle (min_le_right _ _)
          · exact h.2 _ (List.mem_cons_of_mem _ hb'')

theorem min?_spec {α : Type} [LinearOrder α] (l : List α) (a : α)
    (h : l.min? = some a) : a ∈ l ∧ ∀ b ∈ l, a ≤ b := by
  cases l with
  | nil => cases h
  | cons x xs =>
      have hfold := foldl_min_spec xs x
      have ha : xs.foldl min x = a := by
        simpa [List.min?] using h
      rw [ha] at hfold
      exact hfold

theorem foldl_max_spec {α : Type} [LinearOrder α] (xs : List α) (x : α) :
    xs.foldl max x ∈ x :: xs ∧ ∀ b ∈ x :: xs, b ≤ xs.foldl max x := by
  induction xs generalizing x with
  | nil => simp
  | cons y ys ih =>
      have h := ih (max x y)
      constructor
      · rw [List.foldl_cons]
        rcases List.mem_cons.mp h.1 with hm | hm
        · rw [hm]
          rcases max_choice x y with hc | hc <;> rw [hc]
          · exact List.mem_cons_self _ _
          · exact List.mem_cons_of_mem _ (List.mem_cons_self _ _)
        · exact List.mem_cons_of_mem _ (List.mem_cons_of_mem _ hm)
      · intro b hb
        have hle : max x y ≤ ys.foldl max (max x y) :=
          h.2 _ (List.mem_cons_self _ _)
        rw [List.foldl_cons]
        rcases List.mem_cons.mp hb with rfl | hb'
        · exact le_trans (le_max_left _ _) hle
        · rcases List.mem_cons.mp hb' with rfl | hb''
          · exact le_trans (le_max_right _ _) hle
          · exact h.2 _ (List.mem_cons_of_mem _ hb'')

theorem max?_spec {α : Type} [LinearOrder α] (l : List α) (a : α)
    (h : l.max? = some a) : a ∈ l ∧ ∀ b ∈ l, b ≤ a := by
  cases l with
  | nil => cases h
  | cons x xs =>
      have hfold := foldl_max_spec xs x
      have ha : xs.foldl max x = a := by
        simpa [List.max?] using h
      rw [ha] at hfold
      exact hfold

theorem loadRow_eq_none_iff (r : RawRecord) :
    loadRow r = none ↔ r.year = none ∨ r.value = none := by
  rcases r with ⟨rc, ry, rr, rv, rt, rp⟩
  cases ry <;> cases rv <;> simp [loadRow]

/-- Claim C10: the year and value slider setup needs a non-empty normalized
table.  When every raw row loses its year or value in coercion the
normalized table is empty and the bound computation fails (the program
raises instead of showing an empty result); when the normalized table is
non-empty the failure branch is unreachable. -/
theorem rangeDefaults_safety (raws : List RawRecord) :
    (rangeDefaults (loadData raws) = none ↔ loadData raws = []) ∧
    (loadData raws = [] ↔ ∀ r ∈ raws, r.year = none ∨ r.value = none) ∧
    (∀ t : List Record, t ≠ [] → ∃ d, rangeDefaults t = some d) := by
  have hnone : ∀ t : List Record, rangeDefaults t = none ↔ t = [] := by
    intro t
    cases t with
    | nil => simp [rangeDefaults]
    | cons a t' =>
        constructor
        · intro h
          exfalso
          unfold rangeDefaults at h
          simp [List.min?, List.max?] at h
        · intro h
          cases h
  refine ⟨hnone _, ?_, ?_⟩
  · unfold loadData
    rw [List.filterMap_eq_nil_iff]
    constructor
    · intro h r hr
      exact (loadRow_eq_none_iff r).mp (h r hr)
    · intro h r hr
      exact (loadRow_eq_none_iff r).mpr (h r hr)
  · intro t hne
    cases hd : rangeDefaults t with
    | none => exact absurd ((hnone t).mp hd) hne
    | some d => exact ⟨d, rfl⟩

theorem rowMask2_default_eval (ylo yhi : ℤ) (vlo vhi : ℚ) (r : Record) :
    rowMask2 ⟨[], strCodes "All", [], [], (ylo, yhi), (vlo, vhi), []⟩ r
      = (betweenZ ylo yhi r.year && betweenQ vlo vhi r.value) := by
  unfold rowMask2
  simp

/-- A record whose value 0.006 rounds up to 0.01 in the slider default. -/
def recSmall : Record :=
  { city := strCodes "A", year := 2020, receiver := strCodes "R",
    value := 3/500, type := strCodes "t", payes := strCodes "no" }

/-- Counterexample to claim C2 as stated: on the one-row table with value
0.006, the default value range is `(round(0.006, 2), round(0.006, 2)) =
(0.01, 0.01)`, whose `between` test excludes the row, so the all-default
filter returns the empty table, not the input. -/
theorem defaultSpec_not_identity :
    applyFilters2 (defaultSpec [recSmall]) [recSmall] = [] ∧
    [recSmall] ≠ ([] : List Record) := by
  have hm : rowMask2 (defaultSpec [recSmall]) recSmall = false := by
    show rowMask2
      ⟨[], strCodes "All", [], [],
       (((List.map Record.year [recSmall]).min?).getD 0,
        ((List.map Record.year [recSmall]).max?).getD 0),
       (round2 (((List.map Record.value [recSmall]).min?).getD 0),
        round2 (((List.map Record.value [recSmall]).max?).getD 0)), []⟩
      recSmall = false
    rw [rowMask2_default_eval]
    norm_num [recSmall, List.min?, List.max?, betweenZ, betweenQ, round2]
  constructor
  · simp [applyFilters2, hm]
  · simp

/-- Claim C2 (amended): for a non-empty normalized table whose rounded
value bounds still cover every value — in particular whenever all values
have at most two decimal places — the Filter Engine with the all-default
FilterSpec returns the table unchanged, same rows in the same order.  (The
rounding of the slider bounds can otherwise exclude extreme rows, and on an
empty table the defaults cannot be computed at all.) -/
theorem defaultSpec_identity (t : List Record) (hne : t ≠ [])
    (hlo : ∀ r ∈ t, (defaultSpec t).valueRange.1 ≤ r.value)
    (hhi : ∀ r ∈ t, r.value ≤ (defaultSpec t).valueRange.2) :
    applyFilters2 (defaultSpec t) t = t := by
  unfold applyFilters2
  rw [List.filter_eq_self]
  intro r hr
  have hylo : ((t.map Record.year).min?).getD 0 ≤ r.year := by
    cases hm : (t.map Record.year).min? with
    | none =>
        exfalso
        rw [List.min?_eq_none_iff, List.map_eq_nil_iff] at hm
        exact hne hm
    | some a =>
        simpa using (min?_spec _ _ hm).2 _ (List.mem_map_of_mem Record.year hr)
  have hyhi : r.year ≤ ((t.map Record.year).max?).getD 0 := by
    cases hm : (t.map Record.year).max? with
    | none =>
        exfalso
        rw [List.max?_eq_none_iff, List.map_eq_nil_iff] at hm
        exact hne hm
    | some a =>
        simpa using (max?_spec _ _ hm).2 _ (List.mem_map_of_mem Record.year hr)
  have hvlo : round2 (((t.map Record.value).min?).getD 0) ≤ r.value := by
    simpa [defaultSpec] using hlo r hr
  have hvhi : r.value ≤ round2 (((t.map Record.value).max?).getD 0) := by
    simpa [defaultSpec] using hhi r hr
  show rowMask2
    ⟨[], strCodes "All", [], [],
     (((t.map Record.year).min?).getD 0, ((t.map Record.year).max?).getD 0),
     (round2 (((t.map Record.value).min?).getD 0),
      round2 (((t.map Record.value).max?).getD 0)), []⟩ r = true
  rw [rowMask2_default_eval]
  unfold betweenZ betweenQ
  rw [decide_eq_true hylo, decide_eq_true hyhi,
      decide_eq_true hvlo, decide_eq_true hvhi]
  rfl

/-- Witness for claim C2 (amended) on the one-row table with the integral
value 2: the rounded bounds are exact and the all-default filter is the
identity. -/
theorem defaultSpec_identity_witness :
    applyFilters2 (defaultSpec [exRec]) [exRec] = [exRec] :=
  defaultSpec_identity [exRec] (by decide)
    (by
      intro r hr
      rw [List.mem_singleton] at hr
      subst hr
      norm_num [defaultSpec, exRec, round2, List.min?])
    (by
      intro r hr
      rw [List.mem_singleton] at hr
      subst hr
      norm_num [defaultSpec, exRec, round2, List.max?])

/-- Strict lexicographic order on code-point strings, the order pandas uses
to sort string group keys. -/
def lexLtB : Str → Str → Bool
  | [], [] => false
  | [], _ :: _ => true
  | _ :: _, [] => false
  | a :: as, b :: bs =>
      if a < b then true else if b < a then false else lexLtB as bs

/-- Reflexive closure used as the insertion-sort comparison for group
keys. -/
def lexLeB (a b : Str) : Bool := !(lexLtB b a)

theorem lexLtB_irrefl : ∀ a : Str, lexLtB a a = false := by
  intro a
  induction a with
  | nil => rfl
  | cons a0 as ih =>
      simp only [lexLtB]
      rw [if_neg (lt_irrefl a0), if_neg (lt_irrefl a0)]
      exact ih

theorem lexLtB_trans :
    ∀ a b c : Str, lexLtB a b = true → lexLtB b c = true → lexLtB a c = true := by
  intro a
  induction a with
  | nil =>
      intro b c h1 h2
      cases b with
      | nil => cases h1
      | cons b0 bs =>
          cases c with
          | nil => cases h2
          | cons c0 cs => rfl
  | cons a0 as ih =>
      intro b c h1 h2
      cases b with
      | nil => cases h1
      | cons b0 bs =>
          cases c with
          | nil => cases h2
          | cons c0 cs =>
              simp only [lexLtB] at h1 h2 ⊢
              by_cases hab : a0 < b0
              · by_cases hbc : b0 < c0
                · rw [if_pos (by omega)]
                · rw [if_neg hbc] at h2
                  by_cases hcb : c0 < b0
                  · rw [if_pos hcb] at h2; cases h2
                  · rw [if_pos (show a0 < c0 by omega)]
              · rw [if_neg hab] at h1
                by_cases hba : b0 < a0
                · rw [if_pos hba] at h1; cases h1
                · rw [if_neg hba] at h1
                  by_cases hbc : b0 < c0
                  · rw [if_pos (show a0 < c0 by omega)]
                  · rw [if_neg hbc] at h2
                    by_cases hcb : c0 < b0
                    · rw [if_pos hcb] at h2; cases h2
                    · rw [if_neg hcb] at h2
                      rw [if_neg (show ¬ a0 < c0 by omega),
                          if_neg (show ¬ c0 < a0 by omega)]
                      exact ih bs cs h1 h2

theorem lexLtB_trichotomy :
    ∀ a b : Str, lexLtB a b = true ∨ a = b ∨ lexLtB b a = true := by
  intro a
  induction a with
  | nil =>
      intro b
      cases b with
      | nil => right; left; rfl
      | cons b0 bs => left; rfl
  | cons a0 as ih =>
      intro b
      cases b with
      | nil => right; right; rfl
      | cons b0 bs =>
          by_cases hab : a0 < b0
          · left; simp only [lexLtB]; rw [if_pos hab]
          · by_cases hba : b0 < a0
            · right; right; simp only [lexLtB]; rw [if_pos hba]
            · have heq : a0 = b0 := by omega
              subst heq
              rcases ih bs with h | h | h
              · left
                simp only [lexLtB]
                rw [if_neg (lt_irrefl a0), if_neg (lt_irrefl a0)]
                exact h
              · right; left; rw [h]
              · right; right
                simp only [lexLtB]
                rw [if_neg (lt_irrefl a0), if_neg (lt_irrefl a0)]
                exact h

theorem lexLtB_asymm (a b : Str) (h : lexLtB a b = true) :
    lexLtB b a = false := by
  cases h' : lexLtB b a with
  | false => rfl
  | true =>
      have := lexLtB_trans _ _ _ h h'
      rw [lexLtB_irrefl] at this
      cases this

theorem lexLeB_of_not (a b : Str) (h : lexLeB a b = false) :
    lexLeB b a = true := by
  unfold lexLeB at *
  cases h' : lexLtB b a with
  | false => rw [h'] at h; cases h
  | true => rw [lexLtB_asymm _ _ h']; rfl

theorem lexLeB_trans (a b c : Str) (h1 : lexLeB a b = true)
    (h2 : lexLeB b c = true) : lexLeB a c = true := by
  unfold lexLeB at *
  have hba : lexLtB b a = false := by
    cases h' : lexLtB b a with
    | false => rfl
    | true => rw [h'] at h1; cases h1
  have hcb : lexLtB c b = false := by
    cases h' : lexLtB c b with
    | false => rfl
    | true => rw [h'] at h2; cases h2
  have hca : lexLtB c a = false := by
    cases h' : lexLtB c a with
    | false => rfl
    | true =>
        exfalso
        rcases lexLtB_trichotomy a b with hab | rfl | hba'
        · have := lexLtB_trans _ _ _ h' hab
          rw [hcb] at this
          cases this
        · rw [hcb] at h'
          cases h'
        · rw [hba'] at hba
          cases hba
  rw [hca]
  rfl

theorem lexLtB_of_le_ne (a b : Str) (h1 : lexLeB a b = true) (h2 : a ≠ b) :
    lexLtB a b = true := by
  rcases lexLtB_trichotomy a b with h | rfl | h
  · exact h
  · exact absurd rfl h2
  · exfalso
    unfold lexLeB at h1
    rw [h] at h1
    cases h1

/-- Insertion of one element into a sorted list; the element is placed
before the first entry it compares `le` to, so equal elements keep their
relative order (the stability the embedding of `sort_values` relies on). -/
def insertSorted {α : Type} (le : α → α → Bool) (x : α) : List α → List α
  | [] => [x]
  | y :: l => if le x y then x :: y :: l else y :: insertSorted le x l

/-- Stable insertion sort. -/
def isort {α : Type} (le : α → α → Bool) : List α → List α
  | [] => []
  | x :: l => insertSorted le x (isort le l)

theorem insertSorted_perm {α : Type} (le : α → α → Bool) (x : α)
    (l : List α) : (insertSorted le x l).Perm (x :: l) := by
  induction l with
  | nil => exact List.Perm.refl _
  | cons y l ih =>
      by_cases h : le x y
      · simp only [insertSorted]
        rw [if_pos h]
      · simp only [insertSorted]
        rw [if_neg h]
        exact (ih.cons y).trans (List.Perm.swap x y l)

theorem isort_perm {α : Type} (le : α → α → Bool) (l : List α) :
    (isort le l).Perm l := by
  induction l with
  | nil => exact List.Perm.refl _
  | cons x l ih =>
      simp only [isort]
      exact (insertSorted_perm le x (isort le l)).trans (ih.cons x)

theorem insertSorted_pairwise {α : Type} (le : α → α → Bool)
    (P : α → α → Prop) (x : α) :
    ∀ l : List α, l.Pairwise P →
    (∀ a ∈ l, le x a = false → P a x) →
    (∀ b ∈ l, le x b = true → P x b) →
    (∀ y b, y ∈ l → b ∈ l → le x y = true → P y b → P x b) →
    (insertSorted le x l).Pairwise P := by
  intro l
  induction l with
  | nil =>
      intro _ _ _ _
      simp [insertSorted]
  | cons y l ih =>
      intro hl hb ha hcomp
      rcases List.pairwise_cons.mp hl with ⟨hy, hl'⟩
      by_cases h : le x y
      · simp only [insertSorted]
        rw [if_pos h]
        refine List.pairwise_cons.mpr ⟨?_, hl⟩
        intro b hbmem
        rcases List.mem_cons.mp hbmem with rfl | hbl
        · exact ha b (List.mem_cons_self _ _) h
        · exact hcomp y b (List.mem_cons_self _ _) (List.mem_cons_of_mem _ hbl)
            h (hy b hbl)
      · have hfalse : le x y = false := by
          cases h' : le x y with
          | false => rfl
          | true => exact absurd h' h
        simp only [insertSorted]
        rw [if_neg h]
        refine List.pairwise_cons.mpr ⟨?_, ?_⟩
        · intro c hcmem
          rcases List.mem_cons.mp
              ((insertSorted_perm le x l).mem_iff.mp hcmem) with rfl | hcl
          · exact hb y (List.mem_cons_self _ _) hfalse
          · exact hy c hcl
        · exact ih hl'
            (fun a hal hf => hb a (List.mem_cons_of_mem _ hal) hf)
            (fun b hbl ht => ha b (List.mem_cons_of_mem _ hbl) ht)
            (fun y' b hy' hb' ht hp =>
              hcomp y' b (List.mem_cons_of_mem _ hy')
                (List.mem_cons_of_mem _ hb') ht hp)

theorem isort_pairwise_le {α : Type} (le : α → α → Bool)
    (htot : ∀ a b, le a b = false → le b a = true)
    (htrans : ∀ a b c, le a b = true → le b c = true → le a c = true)
    (l : List α) :
    (isort le l).Pairwise (fun a b => le a b = true) := by
  induction l with
  | nil => simp [isort]
  | cons x l ih =>
      simp only [isort]
      refine insertSorted_pairwise le _ x (isort le l) ih ?_ ?_ ?_
      · intro a _ hf
        exact htot x a hf
      · intro b _ ht
        exact ht
      · intro y b _ _ ht hp
        exact htrans x y b ht hp

/-- Sum of `value` over the rows of one city group
(`groupby("city")["value"].sum()` for that key). -/
def citySum (c : Str) (t : List Record) : ℚ :=
  ((t.filter (fun r => decide (r.city = c))).map Record.value).sum

/-- The group keys of `fdf.groupby("city", ...)`: the distinct cities in
ascending lexicographic order (pandas `groupby` sorts its keys by
default). -/
def sortedCities (t : List Record) : List Str :=
  isort lexLeB ((t.map Record.city).dedup)

/-- The groupby result of line 159 before the value sort: one
`(city, summed value)` pair per distinct city, keys ascending. -/
def cityPairs (t : List Record) : List (Str × ℚ) :=
  (sortedCities t).map (fun c => (c, citySum c t))

/-- Comparison used to embed `sort_values("value", ascending=False)`:
descending by summed value. -/
def valGeB (p q : Str × ℚ) : Bool := decide (q.2 ≤ p.2)

/-- `by_city` of `app.py` line 159:
`fdf.groupby("city", as_index=False)["value"].sum()
    .sort_values("value", ascending=False).head(10)`.
The descending value sort is embedded as a stable descending sort of the
key-ascending groupby output: pandas argsorts ascending and reverses both
the input and the output indexer, which preserves the relative order of
ties when the underlying argsort is stable (exact for `kind="stable"`, and
the observed behavior of the default kind on small arrays). -/
def byCity (t : List Record) : List (Str × ℚ) :=
  (isort valGeB (cityPairs t)).take 10

/-- Output order of `by_city`: strictly descending summed value, with ties
in ascending lexicographic city order (inherited from the key-sorted
groupby output through the stable sort). -/
def Sdesc (p q : Str × ℚ) : Prop :=
  q.2 < p.2 ∨ (p.2 = q.2 ∧ lexLtB p.1 q.1 = true)

theorem isort_pairwise_desc (l : List (Str × ℚ))
    (hties : l.Pairwise (fun p q => p.2 = q.2 → lexLtB p.1 q.1 = true)) :
    (isort valGeB l).Pairwise Sdesc := by
  induction l with
  | nil => simp [isort]
  | cons x l ih =>
      rcases List.pairwise_cons.mp hties with ⟨hx, hties'⟩
      simp only [isort]
      refine insertSorted_pairwise valGeB Sdesc x (isort valGeB l)
        (ih hties') ?_ ?_ ?_
      · intro a _ hf
        left
        have hnle : ¬ (a.2 ≤ x.2) := by
          simpa [valGeB] using hf
        exact lt_of_not_le hnle
      · intro b hbl ht
        have hble : b.2 ≤ x.2 := by
          simpa [valGeB] using ht
        rcases lt_or_eq_of_le hble with hlt | heq
        · left; exact hlt
        · right
          exact ⟨heq.symm, hx b ((isort_perm _ _).mem_iff.mp hbl) heq.symm⟩
      · intro y b hyl _ ht hp
        have hyle : y.2 ≤ x.2 := by
          simpa [valGeB] using ht
        rcases hp with hlt | ⟨heq, hlex⟩
        · left; exact lt_of_lt_of_le hlt hyle
        · rcases lt_or_eq_of_le hyle with hylt | hyeq
          · left
            rw [← heq]
            exact hylt
          · right
            refine ⟨by rw [← hyeq, heq], ?_⟩
            have hxy : lexLtB x.1 y.1 = true :=
              hx y ((isort_perm _ _).mem_iff.mp hyl) hyeq.symm
            exact lexLtB_trans _ _ _ hxy hlex

theorem sortedCities_pairwise (t : List Record) :
    (sortedCities t).Pairwise (fun a b => lexLtB a b = true) := by
  have hsorted := isort_pairwise_le lexLeB lexLeB_of_not lexLeB_trans
    ((t.map Record.city).dedup)
  have hnodup : (sortedCities t).Nodup :=
    ((isort_perm lexLeB _).nodup_iff).mpr (List.nodup_dedup _)
  exact (hsorted.and hnodup).imp (fun h => lexLtB_of_le_ne _ _ h.1 h.2)

theorem cityPairs_pairwise (t : List Record) :
    (cityPairs t).Pairwise (fun p q => p.2 = q.2 → lexLtB p.1 q.1 = true) := by
  unfold cityPairs
  rw [List.pairwise_map]
  refine List.Pairwise.imp ?_ (sortedCities_pairwise t)
  intro a b h _
  exact h

/-- Claim C3 (amended): the "values by city" aggregation groups rows by
city, sums the value per group, sorts descending by summed value and keeps
the first 10; but whenever two groups have equal summed value they appear
in ascending lexicographic city order — the order of the key-sorted
groupby output preserved by the stable value sort — not in the order of
each city's first occurrence in the filtered table. -/
theorem byCity_spec (t : List Record) :
    (byCity t).length = min 10 ((t.map Record.city).dedup).length ∧
    (∀ p ∈ byCity t, p.1 ∈ t.map Record.city ∧ p.2 = citySum p.1 t) ∧
    (byCity t).Pairwise Sdesc := by
  refine ⟨?_, ?_, ?_⟩
  · unfold byCity
    rw [List.length_take]
    congr 1
    rw [(isort_perm valGeB (cityPairs t)).length_eq]
    unfold cityPairs
    rw [List.length_map]
    exact (isort_perm lexLeB _).length_eq
  · intro p hp
    have hp1 : p ∈ isort valGeB (cityPairs t) :=
      List.Sublist.mem hp (List.take_sublist _ _)
    have hp2 : p ∈ cityPairs t := (isort_perm _ _).mem_iff.mp hp1
    unfold cityPairs at hp2
    rcases List.mem_map.mp hp2 with ⟨c, hc, rfl⟩
    refine ⟨?_, rfl⟩
    have hcd : c ∈ (t.map Record.city).dedup :=
      (isort_perm lexLeB _).mem_iff.mp hc
    exact List.mem_dedup.mp hcd
  · exact List.Pairwise.sublist (List.take_sublist _ _)
      (isort_pairwise_desc (cityPairs t) (cityPairs_pairwise t))

/-- Distinct elements in order of first occurrence (used only to state the
claim's tie-break). -/
def dFirst : List Str → List Str → List Str
  | _, [] => []
  | seen, x :: l =>
      if x ∈ seen then dFirst seen l else x :: dFirst (x :: seen) l

/-- Modelled from the spec: the "values by city" aggregation as claim C3
states it — groups in order of each city's first occurrence in the
filtered table, then a stable descending sort on the summed value (ties
keep first-occurrence order), then the first 10. -/
def specByCityFirstOccur (t : List Record) : List (Str × ℚ) :=
  (isort valGeB ((dFirst [] (t.map Record.city)).map
    (fun c => (c, citySum c t)))).take 10

/-- Two one-row groups with equal sums, city "b" occurring first. -/
def recCityB : Record :=
  { city := strCodes "b", year := 2020, receiver := strCodes "R",
    value := 1, type := strCodes "t", payes := strCodes "no" }

/-- Second row of the tie table, city "a". -/
def recCityA : Record :=
  { city := strCodes "a", year := 2020, receiver := strCodes "R",
    value := 1, type := strCodes "t", payes := strCodes "no" }

/-- Counterexample to claim C3 as stated: on the table `[city b, city a]`
(equal sums), the code's aggregation lists city "a" first (alphabetical
groupby order kept by the stable sort), while the claimed first-occurrence
tie-break would list city "b" first. -/
theorem byCity_tie_counterexample :
    byCity [recCityB, recCityA] =
      [(strCodes "a", 1), (strCodes "b", 1)] ∧
    specByCityFirstOccur [recCityB, recCityA] =
      [(strCodes "b", 1), (strCodes "a", 1)] ∧
    byCity [recCityB, recCityA] ≠ specByCityFirstOccur [recCityB, recCityA] := by
  have hab : strCodes "a" ≠ strCodes "b" := by decide
  have hba : strCodes "b" ≠ strCodes "a" := by decide
  have hle : lexLeB (strCodes "b") (strCodes "a") = false := by decide
  have hges : valGeB (strCodes "a", 1) (strCodes "b", 1) = true := by
    simp [valGeB]
  have hges2 : valGeB (strCodes "b", 1) (strCodes "a", 1) = true := by
    simp [valGeB]
  have hsumB : citySum (strCodes "b") [recCityB, recCityA] = 1 := by
    simp [citySum, recCityB, recCityA, hba, hab]
  have hsumA : citySum (strCodes "a") [recCityB, recCityA] = 1 := by
    simp [citySum, recCityB, recCityA, hba, hab]
  have hcities : (List.map Record.city [recCityB, recCityA]).dedup =
      [strCodes "b", strCodes "a"] := by
    simp [recCityB, recCityA, List.dedup_cons_of_not_mem, hba, hab]
  have hsort : sortedCities [recCityB, recCityA] =
      [strCodes "a", strCodes "b"] := by
    unfold sortedCities
    rw [hcities]
    simp [isort, insertSorted, hle]
  have hpairs : cityPairs [recCityB, recCityA] =
      [(strCodes "a", 1), (strCodes "b", 1)] := by
    unfold cityPairs
    rw [hsort]
    simp [hsumA, hsumB]
  have h1 : byCity [recCityB, recCityA] =
      [(strCodes "a", 1), (strCodes "b", 1)] := by
    unfold byCity
    rw [hpairs]
    simp [isort, insertSorted, hges]
  have hfo : dFirst [] (List.map Record.city [recCityB, recCityA]) =
      [strCodes "b", strCodes "a"] := by
    simp [recCityB, recCityA, dFirst, hab]
  have h2 : specByCityFirstOccur [recCityB, recCityA] =
      [(strCodes "b", 1), (strCodes "a", 1)] := by
    unfold specByCityFirstOccur
    rw [hfo]
    simp [isort, insertSorted, hges2, hsumA, hsumB]
  refine ⟨h1, h2, ?_⟩
  rw [h1, h2]
  intro hcontra
  simp only [List.cons.injEq, Prod.mk.injEq] at hcontra
  exact hab hcontra.1.1

/-- Minimal CSV quoting of pandas `to_csv` (QUOTE_MINIMAL): a cell
containing a separator, quote, LF or CR is wrapped in double quotes with
inner quotes doubled; other cells are written verbatim. -/
def csvQuote (cell : Str) : Str :=
  if cell.any (fun c => c == 44 || c == 34 || c == 10 || c == 13) then
    34 :: cell.flatMap (fun c => if c == 34 then [34, 34] else [c]) ++ [34]
  else cell

/-- Join code strings with a separator code. -/
def joinSep (sep : Nat) : List Str → Str
  | [] => []
  | [x] => x
  | x :: xs => x ++ sep :: joinSep sep xs

/-- One CSV line: the quoted cells joined by commas (code 44). -/
def csvLine (cells : List Str) : Str := joinSep 44 (cells.map csvQuote)

/-- `fdf.to_csv(index=False)` (line 193): the header line (the table's own
column names, in the dataframe's column order) followed by one line per
row, newline-terminated, with no index column. -/
def toCsv (cols : List Str) (rows : List (List Str)) : Str :=
  joinSep 10 (csvLine cols :: rows.map csvLine) ++ [10]

/-- UTF-8 encoding of one code point. -/
def utf8Char (n : Nat) : List Nat :=
  if n < 128 then [n]
  else if n < 2048 then [192 + n / 64, 128 + n % 64]
  else if n < 65536 then [224 + n / 4096, 128 + n / 64 % 64, 128 + n % 64]
  else [240 + n / 262144, 128 + n / 4096 % 64, 128 + n / 64 % 64, 128 + n % 64]

/-- UTF-8 encoding of a code string. -/
def utf8Encode (s : Str) : List Nat := s.flatMap utf8Char

/-- `fdf.to_csv(index=False).encode("utf-8")` (line 193): the byte
sequence offered by the download button. -/
def exportCsv (cols : List Str) (rows : List (List Str)) : List Nat :=
  utf8Encode (toCsv cols rows)

/-- Split a code string at a separator code (inverse of `joinSep` on
separator-free pieces); used only to state what the CSV lines are. -/
def splitSep (sep : Nat) : Str → List Str
  | [] => [[]]
  | c :: t =>
      match splitSep sep t with
      | [] => [[]]
      | r :: rs => if c = sep then [] :: r :: rs else (c :: r) :: rs

theorem splitSep_ne_nil (sep : Nat) (s : Str) : splitSep sep s ≠ [] := by
  cases s with
  | nil => simp [splitSep]
  | cons c t =>
      simp only [splitSep]
      cases h : splitSep sep t with
      | nil => simp
      | cons r rs =>
          by_cases hc : c = sep <;> simp [hc]

theorem splitSep_no_sep (sep : Nat) (xs : Str) (h : sep ∉ xs) :
    splitSep sep xs = [xs] := by
  induction xs with
  | nil => rfl
  | cons c t ih =>
      have hc : c ≠ sep := fun hc => h (hc ▸ List.mem_cons_self _ _)
      have ht : sep ∉ t := fun ht => h (List.mem_cons_of_mem _ ht)
      simp only [splitSep, ih ht]
      rw [if_neg hc]

theorem splitSep_append (sep : Nat) (xs rest : Str) (h : sep ∉ xs) :
    splitSep sep (xs ++ sep :: rest) = xs :: splitSep sep rest := by
  induction xs with
  | nil =>
      simp only [List.nil_append, splitSep]
      cases hr : splitSep sep rest with
      | nil => exact absurd hr (splitSep_ne_nil sep rest)
      | cons r rs => simp
  | cons c t ih =>
      have hc : c ≠ sep := fun hcc => h (hcc ▸ List.mem_cons_self _ _)
      have ht : sep ∉ t := fun htt => h (List.mem_cons_of_mem _ htt)
      have ih' := ih ht
      simp only [List.cons_append, splitSep, List.append_eq]
      rw [ih']
      simp [hc]

theorem splitSep_joinSep (sep : Nat) (L : List Str)
    (hL : ∀ l ∈ L, sep ∉ l) (hne : L ≠ []) :
    splitSep sep (joinSep sep L ++ [sep]) = L ++ [[]] := by
  induction L with
  | nil => exact absurd rfl hne
  | cons x L' ih =>
      cases L' with
      | nil =>
          have hx : sep ∉ x := hL x (List.mem_cons_self _ _)
          simp only [joinSep]
          rw [show x ++ [sep] = x ++ sep :: ([] : Str) by rfl]
          rw [splitSep_append sep x [] hx]
          rfl
      | cons y L'' =>
          have hx : sep ∉ x := hL x (List.mem_cons_self _ _)
          have hL' : ∀ l ∈ y :: L'', sep ∉ l :=
            fun l hl => hL l (List.mem_cons_of_mem _ hl)
          simp only [joinSep]
          rw [List.append_assoc, List.cons_append]
          rw [splitSep_append sep x _ hx]
          rw [ih hL' (List.cons_ne_nil _ _)]
          rfl

theorem mem_joinSep (sep : Nat) (L : List Str) (c : Nat)
    (hc : c ∈ joinSep sep L) : c = sep ∨ ∃ l ∈ L, c ∈ l := by
  induction L with
  | nil => simp [joinSep] at hc
  | cons x L' ih =>
      cases L' with
      | nil => exact Or.inr ⟨x, List.mem_cons_self _ _, hc⟩
      | cons y L'' =>
          simp only [joinSep] at hc
          rcases List.mem_append.mp hc with h1 | h2
          · exact Or.inr ⟨x, List.mem_cons_self _ _, h1⟩
          · rcases List.mem_cons.mp h2 with rfl | h3
            · exact Or.inl rfl
            · rcases ih h3 with h | ⟨l, hl, hcl⟩
              · exact Or.inl h
              · exact Or.inr ⟨l, List.mem_cons_of_mem _ hl, hcl⟩

theorem csvQuote_clean (cell : Str)
    (h : ∀ c ∈ cell, c ≠ 44 ∧ c ≠ 34 ∧ c ≠ 10 ∧ c ≠ 13) :
    csvQuote cell = cell := by
  have hany : cell.any (fun c => c == 44 || c == 34 || c == 10 || c == 13)
      = false := by
    rw [List.any_eq_false]
    intro c hcm
    obtain ⟨h44, h34, h10, h13⟩ := h c hcm
    simp [h44, h34, h10, h13]
  simp [csvQuote, hany]

theorem csvLine_clean (cells : List Str)
    (h : ∀ cell ∈ cells, ∀ c ∈ cell, c ≠ 44 ∧ c ≠ 34 ∧ c ≠ 10 ∧ c ≠ 13) :
    csvLine cells = joinSep 44 cells := by
  unfold csvLine
  congr 1
  have hmap : cells.map csvQuote = cells.map id :=
    List.map_congr_left (fun cell hc => csvQuote_clean cell (h cell hc))
  rw [hmap, List.map_id]

theorem utf8Encode_ascii (s : Str) (h : ∀ c ∈ s, c < 128) :
    utf8Encode s = s := by
  induction s with
  | nil => rfl
  | cons c t ih =>
      have hc : c < 128 := h c (List.mem_cons_self _ _)
      have ht := ih (fun x hx => h x (List.mem_cons_of_mem _ hx))
      show utf8Char c ++ utf8Encode t = c :: t
      rw [ht]
      unfold utf8Char
      rw [if_pos hc]
      rfl

/-- Claim C7 (amended): the export is the UTF-8 encoding of a CSV
serialization of every column of the filtered table in the dataframe's own
column order — the input file's order with canonicalized names, not the
fixed canonical (city, year, receiver, value, type, payes) order — with
the header line included and no index column: for cells free of CSV
special characters, the newline-split output is exactly the comma-joined
header followed by one comma-joined line per row and the terminating
newline, and on ASCII content the UTF-8 byte encoding is the identity. -/
theorem toCsv_spec (cols : List Str) (rows : List (List Str))
    (hcols : ∀ cell ∈ cols, ∀ c ∈ cell, c ≠ 44 ∧ c ≠ 34 ∧ c ≠ 10 ∧ c ≠ 13)
    (hrows : ∀ row ∈ rows, ∀ cell ∈ row, ∀ c ∈ cell,
      c ≠ 44 ∧ c ≠ 34 ∧ c ≠ 10 ∧ c ≠ 13) :
    splitSep 10 (toCsv cols rows) =
      (joinSep 44 cols :: rows.map (joinSep 44)) ++ [[]] ∧
    ((∀ c ∈ toCsv cols rows, c < 128) →
      exportCsv cols rows = toCsv cols rows) := by
  constructor
  · unfold toCsv
    have hlines : csvLine cols :: rows.map csvLine =
        joinSep 44 cols :: rows.map (joinSep 44) := by
      congr 1
      · exact csvLine_clean cols hcols
      · exact List.map_congr_left
          (fun row hr => csvLine_clean row (hrows row hr))
    rw [hlines]
    apply splitSep_joinSep
    · intro l hl
      rcases List.mem_cons.mp hl with rfl | hl'
      · intro h10
        rcases mem_joinSep 44 cols 10 h10 with h | ⟨cell, hcell, hcin⟩
        · exact absurd h (by decide)
        · exact (hcols cell hcell 10 hcin).2.2.1 rfl
      · rcases List.mem_map.mp hl' with ⟨row, hrow, rfl⟩
        intro h10
        rcases mem_joinSep 44 row 10 h10 with h | ⟨cell, hcell, hcin⟩
        · exact absurd h (by decide)
        · exact (hrows row hrow cell hcell 10 hcin).2.2.1 rfl
    · exact List.cons_ne_nil _ _
  · intro hascii
    unfold exportCsv
    exact utf8Encode_ascii _ hascii

/-- The six required columns in a non-canonical input order. -/
def colsSwapped : List Str :=
  [strCodes "year", strCodes "city", strCodes "receiver",
   strCodes "value", strCodes "type", strCodes "payes"]

/-- Counterexample to claim C7 as stated: a header listing the six
required columns in the order year, city, receiver, value, type, payes
passes schema validation, but the export's header line is then
"year,city,..." — the dataframe's own column order — not the canonical
"city,year,..." order claimed. -/
theorem toCsv_not_canonical_order :
    missingCols colsSwapped = [] ∧
    loadCols colsSwapped ≠ expectedCols ∧
    (splitSep 10 (toCsv (loadCols colsSwapped) [])).headD []
      ≠ joinSep 44 expectedCols := by
  decide

/-- Witness for claim C7 (amended) at the canonical header with no rows. -/
theorem toCsv_spec_witness :
    splitSep 10 (toCsv expectedCols []) =
      (joinSep 44 expectedCols :: List.map (joinSep 44) []) ++ [[]] :=
  (toCsv_spec expectedCols [] (by decide) (by decide)).1

/-- Witness for claim C3 (amended): on the one-row table with city "a",
the single output pair carries that city and its summed value. -/
theorem byCity_spec_witness :
    (strCodes "a", (1 : ℚ)).1 ∈ List.map Record.city [recCityA] ∧
    (strCodes "a", (1 : ℚ)).2 = citySum (strCodes "a", (1 : ℚ)).1 [recCityA] := by
  have hsum : citySum (strCodes "a") [recCityA] = 1 := by
    simp [citySum, recCityA]
  have hcity : Record.city recCityA = strCodes "a" := rfl
  have hpairs : cityPairs [recCityA] = [(strCodes "a", 1)] := by
    unfold cityPairs sortedCities
    simp [hcity, isort, insertSorted, List.dedup_cons_of_not_mem,
      List.dedup_nil, hsum]
  have hmem : (strCodes "a", (1 : ℚ)) ∈ byCity [recCityA] := by
    unfold byCity
    rw [hpairs]
    simp [isort, insertSorted]
  exact (byCity_spec [recCityA]).2.1 (strCodes "a", 1) hmem

/-- Witness for claim C10: the one-row table produces slider defaults. -/
theorem rangeDefaults_safety_witness :
    ∃ d, rangeDefaults [exRec] = some d :=
  (rangeDefaults_safety []).2.2 [exRec] (by decide)
